import Mathlib

/-!
Verification of the Smart-Spreadsheet helper functions
(`src/helper_functions.py`) against their natural-language specification.

The development shallowly embeds the Python source:
  * cell values are `Option String` (Python `None` vs. a stringable value);
  * Python dictionaries are association lists with insert-or-overwrite
    semantics (`dictSet`) preserving first-insertion order;
  * the dynamically typed tree built by `process_hierarchical_table` is the
    inductive `PyVal` (`vnone` / `vstr` / `vdict`);
  * code that can raise a Python exception (IndexError / TypeError in
    `add_data`) returns an `Option`, `Option.none` meaning the exception
    propagates to the caller;
  * the border-scanning detector `get_table_ranges` is a fold over the
    row-major scan order, threading the visited mask and result lists
    through an explicit `ScanState`.
-/

/-- Python `str(cell.value)`: `None` serializes to the literal string
`"None"`, any other value to its text. Embeds `serialize_value`. -/
def serialize_value (v : Option String) : String :=
  match v with
  | Option.none => "None"
  | Option.some s => s

/-- Python `s.lstrip()`: drop leading whitespace. -/
def pyLstrip (s : String) : String :=
  String.mk (s.data.dropWhile Char.isWhitespace)

/-- Python `s.strip()`: drop leading and trailing whitespace. -/
def pyStrip (s : String) : String :=
  String.mk (((s.data.dropWhile Char.isWhitespace).reverse.dropWhile Char.isWhitespace).reverse)

/-- The expression `len(s) - len(s.lstrip())` used by the source both in
`calculate_num_leading_space_per_level` and in the per-row `level`
computation of `process_hierarchical_table`. -/
def row_level (s : String) : Nat :=
  s.length - (pyLstrip s).length

/-- Embeds `calculate_num_leading_space_per_level`: walk consecutive pairs of
row headers, return the first non-zero difference of leading-space counts
(as a Python int, possibly negative), else `0`. -/
def calculate_num_leading_space_per_level : List String → Int
  | a :: b :: rest =>
    if row_level b ≠ row_level a then (row_level b : Int) - (row_level a : Int)
    else calculate_num_leading_space_per_level (b :: rest)
  | _ => 0

/-- A Python dictionary key as it occurs in this program: `None` or a str. -/
inductive PyKey where
  | knone : PyKey
  | kstr : String → PyKey
deriving DecidableEq, Repr

/-- A Python value as it occurs in the trees this program builds:
`None`, a str, or a nested dict. -/
inductive PyVal where
  | vnone : PyVal
  | vstr : String → PyVal
  | vdict : List (PyKey × PyVal) → PyVal

/-- A Python dict: an association list in first-insertion order. -/
abbrev PyDict := List (PyKey × PyVal)

/-- Python `d[k] = v`: overwrite in place if the key is present (keeping its
position), otherwise append at the end. -/
def dictSet (d : PyDict) (k : PyKey) (v : PyVal) : PyDict :=
  if d.any (fun p => p.1 == k) then
    d.map (fun p => if p.1 == k then (k, v) else p)
  else
    d ++ [(k, v)]

/-- Python `d.get(k)` / `k in d`: first (= only) binding of `k`. -/
def dictGet (d : PyDict) (k : PyKey) : Option PyVal :=
  (d.find? (fun p => p.1 == k)).map (fun p => p.2)

/-- Python `dict(zip(ks, vs))` over string keys and string values. -/
def dict_of_zip (ks vs : List String) : PyDict :=
  (ks.zip vs).foldl (fun d p => dictSet d (PyKey.kstr p.1) (PyVal.vstr p.2)) []

/-- Recognizes the Python value `None`. -/
def isVNone : PyVal → Bool
  | PyVal.vnone => true
  | _ => false

/-- Embeds `remove_none_key_value_pairs`: keep exactly the pairs where not
(key is None and value is None). -/
def remove_none_key_value_pairs (d : PyDict) : PyDict :=
  d.filter (fun p => !(p.1 == PyKey.knone && isVNone p.2))

/-- Embeds `process_simple_table`: row 1 is the header, every later row is
zipped against it into a record, and `remove_none_key_value_pairs` is applied
to each record. A worksheet is its row-major grid of cell values. -/
def process_simple_table (rows : List (List (Option String))) : List PyDict :=
  let headers := (rows.headD []).map serialize_value
  (rows.drop 1).map (fun row =>
    remove_none_key_value_pairs (dict_of_zip headers (row.map serialize_value)))

/-- Embeds the inner `add_data` of `process_hierarchical_table`: walk
`nodes[:-1]` from the root, creating `{}` for a missing label, then bind
`nodes[-1]` to the zipped leaf record. `Option.none` models a raised Python
exception: IndexError when `nodes` is empty, TypeError when the walk reaches
a value that is not a dict (e.g. a leaf's string). -/
def add_data (pt : PyDict) (nodes : List String) (col_headers : List String)
    (data_cells : List (Option String)) : Option PyDict :=
  match nodes with
  | [] => Option.none
  | [last] =>
      Option.some (dictSet pt (PyKey.kstr last)
        (PyVal.vdict (dict_of_zip col_headers (data_cells.map serialize_value))))
  | n :: rest =>
      match dictGet pt (PyKey.kstr n) with
      | Option.none =>
          (add_data [] rest col_headers data_cells).map
            (fun sub => dictSet pt (PyKey.kstr n) (PyVal.vdict sub))
      | Option.some (PyVal.vdict sub) =>
          (add_data sub rest col_headers data_cells).map
            (fun sub2 => dictSet pt (PyKey.kstr n) (PyVal.vdict sub2))
      | Option.some _ => Option.none

/-- The walk of `add_data` succeeds without a Python exception: every label
of `nodes[:-1]` that is already present must be bound to a dict (missing
labels are fine: `add_data` synthesizes `{}` for them), and `nodes` must be
non-empty. -/
def canWalk (pt : PyDict) : List String → Bool
  | [] => false
  | [_] => true
  | n :: rest =>
      match dictGet pt (PyKey.kstr n) with
      | Option.none => true
      | Option.some (PyVal.vdict sub) => canWalk sub rest
      | Option.some _ => false

/-- Follow a label path down the tree (specification-side observer used to
state where `add_data` put the leaf). -/
def lookupPath (d : PyDict) : List String → Option PyVal
  | [] => Option.none
  | [n] => dictGet d (PyKey.kstr n)
  | n :: rest =>
      match dictGet d (PyKey.kstr n) with
      | Option.some (PyVal.vdict sub) => lookupPath sub rest
      | _ => Option.none

/-- Embeds one iteration of the row loop of `process_hierarchical_table`:
compute the raw leading-space `level` of the label cell (the division by the
inferred unit is commented out in the source), truncate the running `nodes`
path to that level, append the stripped label, and call `add_data` exactly
when the Python `any([c for c in data_cells if c.value is not None])` is
true, i.e. when some data cell is non-empty. -/
def hier_step (col_headers : List String) (acc : Option (PyDict × List String))
    (row : List (Option String)) : Option (PyDict × List String) :=
  acc.bind (fun st =>
    let s := serialize_value (row.headD Option.none)
    let label := pyStrip s
    let data_cells := row.drop 1
    let nodes := (st.2.take (row_level s)) ++ [label]
    if (data_cells.filter (fun c => c.isSome)).isEmpty then
      Option.some (st.1, nodes)
    else
      (add_data st.1 nodes col_headers data_cells).map (fun t => (t, nodes)))

/-- The row-loop fold of `process_hierarchical_table`, before the final
`remove_none_key_value_pairs`: headers come from row 1 columns 2.., data
rows are rows 2... -/
def hier_run (rows : List (List (Option String))) : Option (PyDict × List String) :=
  (rows.drop 1).foldl
    (hier_step (((rows.headD []).drop 1).map serialize_value))
    (Option.some ([], []))

/-- Embeds `process_hierarchical_table`. The leading-space unit is computed
and defaulted exactly as in the source — and, as in the source, never used
afterwards. `Option.none` models a raised exception. -/
def process_hierarchical_table (rows : List (List (Option String))) : Option PyDict :=
  let row_headers := (rows.drop 1).map (fun r => serialize_value (r.headD Option.none))
  let n0 := calculate_num_leading_space_per_level row_headers
  let num_leading_space_per_level : Int := if n0 = 0 then 1 else n0
  let _ := num_leading_space_per_level
  (hier_run rows).map (fun st => remove_none_key_value_pairs st.1)

/-- A formatted cell as the detector reads it: a value and one border style
per edge (`Option.none` = no border on that edge). -/
structure CellD where
  value : Option String
  borderTop : Option String
  borderBottom : Option String
  borderLeft : Option String
  borderRight : Option String
deriving DecidableEq, Repr

/-- Embeds `is_empty_cell`. -/
def is_empty_cell (c : CellD) : Bool :=
  c.value.isNone

/-- Embeds `has_bottom_right_border`. -/
def has_bottom_right_border (c : CellD) : Bool :=
  (c.borderBottom.isSome && c.borderBottom == Option.some "medium") &&
    (c.borderRight.isSome && c.borderRight == Option.some "medium")

/-- Embeds `has_top_right_border`. -/
def has_top_right_border (c : CellD) : Bool :=
  (c.borderTop.isSome && c.borderTop == Option.some "medium") &&
    (c.borderRight.isSome && c.borderRight == Option.some "medium")

/-- Embeds `has_upper_left_border`. -/
def has_upper_left_border (c : CellD) : Bool :=
  (c.borderTop.isSome && c.borderTop == Option.some "medium") &&
    (c.borderLeft.isSome && c.borderLeft == Option.some "medium")

/-- A worksheet as the detector reads it: `sheet.cell(row, column)` works at
any 1-based coordinates (openpyxl materializes empty cells on demand), plus
the `max_column` extent. -/
structure WS where
  maxColumn : Nat
  cell : Nat → Nat → CellD

/-- The source's `MAX_ROW_IDX` scan bound. -/
def MAX_ROW_IDX : Nat := 100

/-- A detected table range (the source renders it as the string
`"<start coordinate>:<end coordinate>"`). -/
structure TableRegion where
  startRow : Nat
  startCol : Nat
  endRow : Nat
  endCol : Nat
deriving DecidableEq, Repr

/-- The rightward scan for the top-right closing corner: the first
`col_idx_inner` in `range(start_col + 1, max_column + 1)` whose left
neighbor has the top-right marker sets `end_col` to that neighbor's column;
otherwise `end_col` keeps its initial value `start_col`. -/
def find_end_col (ws : WS) (startRow startCol : Nat) : Nat :=
  match (List.range' (startCol + 1) (ws.maxColumn + 1 - (startCol + 1))).find?
      (fun j => has_top_right_border (ws.cell startRow (j - 1))) with
  | Option.some j => j - 1
  | Option.none => startCol

/-- The downward scan for the bottom-right closing corner along column
`end_col`, bounded by `MAX_ROW_IDX`; otherwise `end_row` keeps its initial
value `start_row`. -/
def find_end_row (ws : WS) (startRow endCol : Nat) : Nat :=
  match (List.range' (startRow + 1) (MAX_ROW_IDX + 1 - (startRow + 1))).find?
      (fun i => has_bottom_right_border (ws.cell (i - 1) endCol)) with
  | Option.some i => i - 1
  | Option.none => startRow

/-- The rectangle of (row, column) coordinates marked visited by
`mark_cells_visited`. -/
def rectCells (sr sc er ec : Nat) : List (Nat × Nat) :=
  (List.range' sr (er + 1 - sr)).flatMap
    (fun r => (List.range' sc (ec + 1 - sc)).map (fun c => (r, c)))

/-- The value-only re-indexed copy of a rectangle that `mark_cells_visited`
writes into a fresh workbook. -/
def extract_subgrid (ws : WS) (sr sc er ec : Nat) : List (List (Option String)) :=
  (List.range' sr (er + 1 - sr)).map
    (fun r => (List.range' sc (ec + 1 - sc)).map (fun c => (ws.cell r c).value))

/-- The mutable state of one `get_table_ranges` invocation. -/
structure ScanState where
  visited : List (Nat × Nat)
  ranges : List TableRegion
  simple : List (List (List (Option String)))
  complex : List (List (List (Option String)))
  isComplex : Bool
deriving DecidableEq

/-- Processing of one found upper-left corner at `(r, c)`: classify by
emptiness of the corner cell, run the two closing-corner scans, emit the
range, mark the rectangle visited, extract the sub-grid and append it to the
simple or complex list. -/
def emitRegion (ws : WS) (st : ScanState) (r c : Nat) : ScanState :=
  let isC := if is_empty_cell (ws.cell r c) then true else st.isComplex
  let ec := find_end_col ws r c
  let er := find_end_row ws r ec
  let reg : TableRegion := ⟨r, c, er, ec⟩
  let sub := extract_subgrid ws r c er ec
  { visited := st.visited ++ rectCells r c er ec
    ranges := st.ranges ++ [reg]
    simple := if isC then st.simple else st.simple ++ [sub]
    complex := if isC then st.complex ++ [sub] else st.complex
    isComplex := if isC then false else isC }

/-- One step of the column loop: skip visited cells and rows before 45, then
test the upper-left marker. -/
def scanCell (ws : WS) (st : ScanState) (r c : Nat) : ScanState :=
  if st.visited.contains (r, c) || decide (r < 45) then st
  else if has_upper_left_border (ws.cell r c) then emitRegion ws st r c
  else st

/-- One row of the scan: reset `is_complex`, then walk columns
`1 .. max_column - 1`. -/
def scanRow (ws : WS) (st : ScanState) (r : Nat) : ScanState :=
  (List.range' 1 (ws.maxColumn - 1)).foldl
    (fun s c => scanCell ws s r c)
    { st with isComplex := false }

/-- The all-empty state at the start of a scan. -/
def initState : ScanState :=
  { visited := [], ranges := [], simple := [], complex := [], isComplex := false }

/-- Embeds `get_table_ranges`: scan rows `1 .. MAX_ROW_IDX - 1`. -/
def get_table_ranges (ws : WS) : ScanState :=
  (List.range' 1 (MAX_ROW_IDX - 1)).foldl (scanRow ws) initState

/-- A cell with no value and no borders (what openpyxl materializes for a
coordinate never written). -/
def cEmpty : CellD :=
  ⟨Option.none, Option.none, Option.none, Option.none, Option.none⟩

/-- Example sheet: a single upper-left corner marker at (45, 1) and no
closing corner anywhere. Exercises the unclosed-region policy. -/
def g1 : WS :=
  { maxColumn := 3
    cell := fun r c =>
      if r = 45 ∧ c = 1 then
        { value := Option.some "x", borderTop := Option.some "medium",
          borderBottom := Option.none, borderLeft := Option.some "medium",
          borderRight := Option.none }
      else cEmpty }

/-- The final state of the scan over `g1`. -/
def g1st : ScanState :=
  ⟨[(45, 1)], [⟨45, 1, 45, 1⟩], [[[Option.some "x"]]], [], false⟩

/-- Example sheet with two detectable tables whose rectangles overlap: a
populated-corner table at (45, 3) closed at (46, 4), and an empty-corner
table at (46, 1) whose rightward scan runs into the first table's closing
column. -/
def g4 : WS :=
  { maxColumn := 5
    cell := fun r c =>
      if r = 45 ∧ c = 3 then
        { value := Option.some "S", borderTop := Option.some "medium",
          borderBottom := Option.none, borderLeft := Option.some "medium",
          borderRight := Option.none }
      else if r = 45 ∧ c = 4 then
        { value := Option.some "h", borderTop := Option.some "medium",
          borderBottom := Option.none, borderLeft := Option.none,
          borderRight := Option.some "medium" }
      else if r = 46 ∧ c = 4 then
        { value := Option.some "d", borderTop := Option.some "medium",
          borderBottom := Option.some "medium", borderLeft := Option.none,
          borderRight := Option.some "medium" }
      else if r = 46 ∧ c = 1 then
        { value := Option.none, borderTop := Option.some "medium",
          borderBottom := Option.none, borderLeft := Option.some "medium",
          borderRight := Option.none }
      else cEmpty }

/-- The scan state over `g4` after row 45 (first region emitted). -/
def g4st1 : ScanState :=
  ⟨[(45, 3), (45, 4), (46, 3), (46, 4)],
   [⟨45, 3, 46, 4⟩],
   [[[Option.some "S", Option.some "h"], [Option.none, Option.some "d"]]],
   [],
   false⟩

/-- The final state of the scan over `g4`: two regions, one simple and one
complex, with overlapping rectangles. -/
def g4st2 : ScanState :=
  ⟨[(45, 3), (45, 4), (46, 3), (46, 4), (46, 1), (46, 2), (46, 3), (46, 4)],
   [⟨45, 3, 46, 4⟩, ⟨46, 1, 46, 4⟩],
   [[[Option.some "S", Option.some "h"], [Option.none, Option.some "d"]]],
   [[[Option.none, Option.none, Option.none, Option.some "d"]]],
   false⟩

/-- Example complex sub-grid whose row labels carry leading spaces
[0, 3, 3, 6] (the spec's worked indentation example). -/
def exIndent : List (List (Option String)) :=
  [[Option.none, Option.some "H"],
   [Option.some "A", Option.some "1"],
   [Option.some "   B", Option.some "2"],
   [Option.some "   C", Option.some "3"],
   [Option.some "      D", Option.some "4"]]

/-- Example complex sub-grid where a data row's ancestor path descends
through a header key of an earlier leaf record: row "A" writes leaf
{H: "v"}, the category row " H" extends the path to [A, H], and row "  B"
must then attach under the string "v". -/
def exLeafCollision : List (List (Option String)) :=
  [[Option.none, Option.some "H"],
   [Option.some "A", Option.some "v"],
   [Option.some " H", Option.none],
   [Option.some "  B", Option.some "w"]]

/-- Top-level shape of the reconstructor's tree: every key is a stripped
string and every value is a dict. -/
def TopShape (pt : PyDict) : Prop :=
  ∀ p ∈ pt, (∃ s, p.1 = PyKey.kstr (pyStrip s)) ∧ ∃ l, p.2 = PyVal.vdict l

/-- Every element of the running path is a stripped label. -/
def StrippedList (ns : List String) : Prop :=
  ∀ n ∈ ns, ∃ s, n = pyStrip s

/-- Invariant carried by the running accumulator of the row-loop fold. -/
def HierInv (acc : Option (PyDict × List String)) : Prop :=
  ∀ pt ns, acc = Option.some (pt, ns) → TopShape pt ∧ StrippedList ns

/-- Invariant of one detector scan, threaded through every row and column
step: the complex flag is clear between corners; every emitted region is
inside the scanned area with ordered corners; the visited mask covers every
emitted rectangle; no later region's upper-left corner lies inside an
earlier region; and the simple/complex output lists are exactly the
extracted sub-grids of the regions with populated/empty corner cells. -/
structure ScanInv (ws : WS) (st : ScanState) : Prop where
  flagFalse : st.isComplex = false
  bounds : ∀ reg ∈ st.ranges,
    45 ≤ reg.startRow ∧ reg.startRow ≤ 99 ∧
    1 ≤ reg.startCol ∧ reg.startCol + 1 ≤ ws.maxColumn ∧
    reg.startRow ≤ reg.endRow ∧ reg.endRow ≤ 99 ∧
    reg.startCol ≤ reg.endCol ∧ reg.endCol + 1 ≤ ws.maxColumn
  covered : ∀ reg ∈ st.ranges, ∀ p : Nat × Nat,
    reg.startRow ≤ p.1 → p.1 ≤ reg.endRow → reg.startCol ≤ p.2 → p.2 ≤ reg.endCol →
    p ∈ st.visited
  cornersFree : st.ranges.Pairwise (fun a b =>
    ¬(a.startRow ≤ b.startRow ∧ b.startRow ≤ a.endRow ∧
      a.startCol ≤ b.startCol ∧ b.startCol ≤ a.endCol))
  complexEq : st.complex =
    (st.ranges.filter (fun reg => is_empty_cell (ws.cell reg.startRow reg.startCol))).map
      (fun reg => extract_subgrid ws reg.startRow reg.startCol reg.endRow reg.endCol)
  simpleEq : st.simple =
    (st.ranges.filter (fun reg => !is_empty_cell (ws.cell reg.startRow reg.startCol))).map
      (fun reg => extract_subgrid ws reg.startRow reg.startCol reg.endRow reg.endCol)

/-! ## General helper lemmas -/

/-- Folding a function that fixes the state leaves the state unchanged. -/
theorem foldl_fixed {σ α : Type} (f : σ → α → σ) (st : σ) :
    ∀ l : List α, (∀ x ∈ l, f st x = st) → l.foldl f st = st := by
  intro l
  induction l with
  | nil => intro _; rfl
  | cons a l ih =>
      intro h
      have ha : f st a = st := h a (List.mem_cons_self a l)
      rw [List.foldl_cons, ha]
      exact ih (fun x hx => h x (List.mem_cons_of_mem a hx))

/-- A predicate preserved by every step of a fold holds of the fold. -/
theorem foldl_inv {σ α : Type} (f : σ → α → σ) (P : σ → Prop) :
    ∀ (l : List α) (st : σ),
      (∀ st' x, x ∈ l → P st' → P (f st' x)) → P st → P (l.foldl f st) := by
  intro l
  induction l with
  | nil => intro st _ h; exact h
  | cons a l ih =>
      intro st hf h
      rw [List.foldl_cons]
      exact ih (f st a) (fun st' x hx => hf st' x (List.mem_cons_of_mem a hx))
        (hf st a (List.mem_cons_self a l) h)

/-! ## Concrete detector runs -/

/-- Full evaluation of the scan over `g1`. -/
theorem g1_run : get_table_ranges g1 = g1st := by
  have hsplit : List.range' 1 (MAX_ROW_IDX - 1) =
      List.range' 1 44 ++ [45] ++ List.range' 46 54 := by decide
  unfold get_table_ranges
  rw [hsplit, List.foldl_append, List.foldl_append]
  have h1 : List.foldl (scanRow g1) initState (List.range' 1 44) = initState :=
    foldl_fixed _ _ _ (by decide)
  rw [h1]
  have h2 : List.foldl (scanRow g1) initState [45] = g1st := by decide
  rw [h2]
  exact foldl_fixed _ _ _ (by decide)

/-- Full evaluation of the scan over `g4`. -/
theorem g4_run : get_table_ranges g4 = g4st2 := by
  have hsplit : List.range' 1 (MAX_ROW_IDX - 1) =
      List.range' 1 44 ++ [45] ++ [46] ++ List.range' 47 53 := by decide
  unfold get_table_ranges
  rw [hsplit, List.foldl_append, List.foldl_append, List.foldl_append]
  have h1 : List.foldl (scanRow g4) initState (List.range' 1 44) = initState :=
    foldl_fixed _ _ _ (by decide)
  rw [h1]
  have h2 : List.foldl (scanRow g4) initState [45] = g4st1 := by decide
  rw [h2]
  have h3 : List.foldl (scanRow g4) g4st1 [46] = g4st2 := by decide
  rw [h3]
  exact foldl_fixed _ _ _ (by decide)

/-! ## Detector scan invariant -/

/-- The rightward closing scan never moves left of the corner and never
leaves the sheet's columns. -/
theorem find_end_col_bounds (ws : WS) (sr sc : Nat) (h : sc + 1 ≤ ws.maxColumn) :
    sc ≤ find_end_col ws sr sc ∧ find_end_col ws sr sc + 1 ≤ ws.maxColumn := by
  unfold find_end_col
  cases hfind : (List.range' (sc + 1) (ws.maxColumn + 1 - (sc + 1))).find?
      (fun j => has_top_right_border (ws.cell sr (j - 1))) with
  | none => exact ⟨Nat.le_refl _, h⟩
  | some j =>
      have hj := List.mem_of_find?_eq_some hfind
      rw [List.mem_range'_1] at hj
      dsimp only
      omega

/-- The downward closing scan never moves above the corner and never leaves
the scanned rows. -/
theorem find_end_row_bounds (ws : WS) (sr ec : Nat) (h : sr ≤ 99) :
    sr ≤ find_end_row ws sr ec ∧ find_end_row ws sr ec ≤ 99 := by
  unfold find_end_row
  cases hfind : (List.range' (sr + 1) (MAX_ROW_IDX + 1 - (sr + 1))).find?
      (fun i => has_bottom_right_border (ws.cell (i - 1) ec)) with
  | none => exact ⟨Nat.le_refl _, h⟩
  | some i =>
      have hi := List.mem_of_find?_eq_some hfind
      rw [List.mem_range'_1] at hi
      unfold MAX_ROW_IDX at hi
      dsimp only
      omega

/-- Membership in the visited rectangle of a region. -/
theorem mem_rectCells (sr sc er ec : Nat) (p : Nat × Nat) :
    p ∈ rectCells sr sc er ec ↔ sr ≤ p.1 ∧ p.1 ≤ er ∧ sc ≤ p.2 ∧ p.2 ≤ ec := by
  unfold rectCells
  simp only [List.mem_flatMap, List.mem_map, List.mem_range'_1]
  constructor
  · rintro ⟨r, ⟨hr1, hr2⟩, c, ⟨hc1, hc2⟩, rfl⟩
    simp only []
    omega
  · rintro ⟨h1, h2, h3, h4⟩
    exact ⟨p.1, by omega, p.2, by omega, rfl⟩

/-- The visited mask after an emission. -/
theorem emitRegion_visited (ws : WS) (st : ScanState) (r c : Nat) :
    (emitRegion ws st r c).visited =
      st.visited ++ rectCells r c (find_end_row ws r (find_end_col ws r c)) (find_end_col ws r c) :=
  rfl

/-- The range list after an emission. -/
theorem emitRegion_ranges (ws : WS) (st : ScanState) (r c : Nat) :
    (emitRegion ws st r c).ranges =
      st.ranges ++ [⟨r, c, find_end_row ws r (find_end_col ws r c), find_end_col ws r c⟩] :=
  rfl

/-- The complex flag is clear again after an emission. -/
theorem emitRegion_isComplex (ws : WS) (st : ScanState) (r c : Nat)
    (h : st.isComplex = false) : (emitRegion ws st r c).isComplex = false := by
  unfold emitRegion
  cases hemp : is_empty_cell (ws.cell r c) <;> simp [hemp, h]

/-- Emission at an empty corner cell appends to the complex list only. -/
theorem emitRegion_empty (ws : WS) (st : ScanState) (r c : Nat)
    (hemp : is_empty_cell (ws.cell r c) = true) :
    (emitRegion ws st r c).complex =
      st.complex ++ [extract_subgrid ws r c
        (find_end_row ws r (find_end_col ws r c)) (find_end_col ws r c)] ∧
    (emitRegion ws st r c).simple = st.simple := by
  unfold emitRegion
  simp [hemp]

/-- Emission at a populated corner cell appends to the simple list only
(given the flag is clear, as it always is at a corner). -/
theorem emitRegion_populated (ws : WS) (st : ScanState) (r c : Nat)
    (hemp : is_empty_cell (ws.cell r c) = false) (hflag : st.isComplex = false) :
    (emitRegion ws st r c).complex = st.complex ∧
    (emitRegion ws st r c).simple =
      st.simple ++ [extract_subgrid ws r c
        (find_end_row ws r (find_end_col ws r c)) (find_end_col ws r c)] := by
  unfold emitRegion
  simp [hemp, hflag]

/-- Emission preserves the scan invariant. -/
theorem emitRegion_inv (ws : WS) (st : ScanState) (r c : Nat)
    (h45 : 45 ≤ r) (hr : r ≤ 99) (hc1 : 1 ≤ c) (hc2 : c + 1 ≤ ws.maxColumn)
    (hfree : (r, c) ∉ st.visited) (h : ScanInv ws st) :
    ScanInv ws (emitRegion ws st r c) := by
  obtain ⟨hec1, hec2⟩ := find_end_col_bounds ws r c hc2
  obtain ⟨her1, her2⟩ := find_end_row_bounds ws r (find_end_col ws r c) hr
  constructor
  · exact emitRegion_isComplex ws st r c h.flagFalse
  · rw [emitRegion_ranges]
    intro reg hreg
    rcases List.mem_append.mp hreg with hold | hnew
    · exact h.bounds reg hold
    · rcases List.mem_singleton.mp hnew with rfl
      exact ⟨h45, hr, hc1, hc2, her1, her2, hec1, hec2⟩
  · rw [emitRegion_ranges, emitRegion_visited]
    intro reg hreg p h1 h2 h3 h4
    rcases List.mem_append.mp hreg with hold | hnew
    · exact List.mem_append_left _ (h.covered reg hold p h1 h2 h3 h4)
    · rcases List.mem_singleton.mp hnew with rfl
      exact List.mem_append_right _ ((mem_rectCells _ _ _ _ p).mpr ⟨h1, h2, h3, h4⟩)
  · rw [emitRegion_ranges]
    refine List.pairwise_append.mpr ⟨h.cornersFree, List.pairwise_singleton _ _, ?_⟩
    intro a ha b hb
    rcases List.mem_singleton.mp hb with rfl
    rintro ⟨k1, k2, k3, k4⟩
    exact hfree (h.covered a ha (r, c) k1 k2 k3 k4)
  · rw [emitRegion_ranges]
    cases hemp : is_empty_cell (ws.cell r c) with
    | true =>
        rw [(emitRegion_empty ws st r c hemp).1, h.complexEq,
          List.filter_append, List.map_append]
        congr 1
        simp [hemp]
    | false =>
        rw [(emitRegion_populated ws st r c hemp h.flagFalse).1, h.complexEq,
          List.filter_append, List.map_append]
        simp [hemp]
  · rw [emitRegion_ranges]
    cases hemp : is_empty_cell (ws.cell r c) with
    | true =>
        rw [(emitRegion_empty ws st r c hemp).2, h.simpleEq,
          List.filter_append, List.map_append]
        simp [hemp]
    | false =>
        rw [(emitRegion_populated ws st r c hemp h.flagFalse).2, h.simpleEq,
          List.filter_append, List.map_append]
        congr 1
        simp [hemp]

/-- One column step preserves the scan invariant. -/
theorem scanCell_inv (ws : WS) (st : ScanState) (r c : Nat)
    (hr : r ≤ 99) (hc1 : 1 ≤ c) (hc2 : c + 1 ≤ ws.maxColumn)
    (h : ScanInv ws st) : ScanInv ws (scanCell ws st r c) := by
  unfold scanCell
  split
  · exact h
  next hguard =>
    simp only [Bool.or_eq_true, decide_eq_true_eq, not_or, Bool.not_eq_true] at hguard
    split
    · have hfree : (r, c) ∉ st.visited := by
        intro hmem
        have hc : st.visited.contains (r, c) = true := List.elem_iff.mpr hmem
        rw [hguard.1] at hc
        exact Bool.false_ne_true hc
      exact emitRegion_inv ws st r c (Nat.le_of_not_lt hguard.2) hr hc1 hc2 hfree h
    · exact h

/-- One row step preserves the scan invariant. -/
theorem scanRow_inv (ws : WS) (st : ScanState) (r : Nat)
    (hr : r ≤ 99) (h : ScanInv ws st) : ScanInv ws (scanRow ws st r) := by
  unfold scanRow
  apply foldl_inv _ (ScanInv ws)
  · intro st' c hc hinv
    rw [List.mem_range'_1] at hc
    exact scanCell_inv ws st' r c hr hc.1 (by omega) hinv
  · exact ⟨rfl, h.bounds, h.covered, h.cornersFree, h.complexEq, h.simpleEq⟩

/-- The scan invariant holds of the final state of every detector run. -/
theorem get_table_ranges_inv (ws : WS) : ScanInv ws (get_table_ranges ws) := by
  unfold get_table_ranges
  apply foldl_inv _ (ScanInv ws)
  · intro st r hrmem hinv
    rw [List.mem_range'_1] at hrmem
    unfold MAX_ROW_IDX at hrmem
    exact scanRow_inv ws st r (by omega) hinv
  · exact ⟨rfl, by simp [initState], by simp [initState], by simp [initState], rfl, rfl⟩

/-! ## Dictionary and hierarchy-builder lemmas -/
theorem dictGet_cons_hit (q : PyKey × PyVal) (d : PyDict) (k : PyKey)
    (h : (q.1 == k) = true) : dictGet (q :: d) k = Option.some q.2 := by
  simp [dictGet, List.find?_cons, h]

theorem dictGet_cons_miss (q : PyKey × PyVal) (d : PyDict) (k : PyKey)
    (h : (q.1 == k) = false) : dictGet (q :: d) k = dictGet d k := by
  simp [dictGet, List.find?_cons, h]

theorem dictGet_dictSet_self (d : PyDict) (k : PyKey) (v : PyVal) :
    dictGet (dictSet d k v) k = Option.some v := by
  induction d with
  | nil => simp [dictSet, dictGet]
  | cons p d ih =>
      by_cases hp : (p.1 == k) = true
      · have hany : ((p :: d).any (fun q => q.1 == k)) = true := by simp [List.any_cons, hp]
        rw [dictSet, if_pos hany, List.map_cons]
        have hf : (if (p.1 == k) = true then (k, v) else p) = (k, v) := if_pos hp
        rw [hf]
        exact dictGet_cons_hit (k, v) _ k (by simp)
      · have hpf : (p.1 == k) = false := by simpa using hp
        cases hany : d.any (fun q => q.1 == k) with
        | true =>
            have hany' : ((p :: d).any (fun q => q.1 == k)) = true := by
              simp [List.any_cons, hany]
            rw [dictSet, if_pos hany', List.map_cons]
            have hf : (if (p.1 == k) = true then (k, v) else p) = p := if_neg hp
            rw [hf, dictGet_cons_miss p _ k hpf]
            rw [dictSet, if_pos hany] at ih
            exact ih
        | false =>
            have hany' : ((p :: d).any (fun q => q.1 == k)) = false := by
              simp [List.any_cons, hpf, hany]
            rw [dictSet, if_neg (by simp [hany'])]
            rw [List.cons_append, dictGet_cons_miss p _ k hpf]
            rw [dictSet, if_neg (by simp [hany])] at ih
            exact ih

theorem add_data_lookupPath :
    ∀ (nodes : List String) (pt : PyDict) (ch : List String)
      (dc : List (Option String)) (t' : PyDict),
      add_data pt nodes ch dc = Option.some t' →
      lookupPath t' nodes =
        Option.some (PyVal.vdict (dict_of_zip ch (dc.map serialize_value))) := by
  intro nodes
  induction nodes with
  | nil => intro pt ch dc t' h; simp [add_data] at h
  | cons n rest ih =>
      intro pt ch dc t' h
      cases rest with
      | nil =>
          simp only [add_data, Option.some.injEq] at h
          subst h
          simp [lookupPath, dictGet_dictSet_self]
      | cons r rest' =>
          simp only [add_data] at h
          cases hget : dictGet pt (PyKey.kstr n) with
          | none =>
              rw [hget] at h
              rcases Option.map_eq_some'.mp h with ⟨sub, hsub, rfl⟩
              simp only [lookupPath, dictGet_dictSet_self]
              exact ih [] ch dc sub hsub
          | some w =>
              rw [hget] at h
              cases w with
              | vnone => simp at h
              | vstr s => simp at h
              | vdict sub =>
                  rcases Option.map_eq_some'.mp h with ⟨sub2, hsub2, rfl⟩
                  simp only [lookupPath, dictGet_dictSet_self]
                  exact ih sub ch dc sub2 hsub2

theorem canWalk_nil (rest : List String) (h : rest ≠ []) : canWalk [] rest = true := by
  cases rest with
  | nil => exact absurd rfl h
  | cons r rest' =>
      cases rest' with
      | nil => rfl
      | cons r2 rest'' => simp [canWalk, dictGet]

theorem add_data_isSome_of_canWalk :
    ∀ (nodes : List String) (pt : PyDict) (ch : List String) (dc : List (Option String)),
      canWalk pt nodes = true → (add_data pt nodes ch dc).isSome = true := by
  intro nodes
  induction nodes with
  | nil => intro pt ch dc h; simp [canWalk] at h
  | cons n rest ih =>
      intro pt ch dc h
      cases rest with
      | nil => simp [add_data]
      | cons r rest' =>
          simp only [add_data]
          cases hget : dictGet pt (PyKey.kstr n) with
          | none =>
              dsimp only
              have hw : canWalk [] (r :: rest') = true := canWalk_nil _ (by simp)
              rcases Option.isSome_iff_exists.mp (ih [] ch dc hw) with ⟨sub, hsub⟩
              rw [hsub]
              rfl
          | some w =>
              simp only [canWalk, hget] at h
              cases w with
              | vnone => simp at h
              | vstr s => simp at h
              | vdict sub =>
                  dsimp only at h ⊢
                  rcases Option.isSome_iff_exists.mp (ih sub ch dc h) with ⟨sub2, hsub2⟩
                  rw [hsub2]
                  rfl

theorem dictSet_mem (d : PyDict) (k : PyKey) (v : PyVal) :
    ∀ p ∈ dictSet d k v, p = (k, v) ∨ p ∈ d := by
  intro p hp
  unfold dictSet at hp
  split at hp
  · rcases List.mem_map.mp hp with ⟨q, hq, hfq⟩
    by_cases hqk : (q.1 == k) = true
    · left; rw [← hfq, if_pos hqk]
    · right; rw [← hfq, if_neg hqk]; exact hq
  · rcases List.mem_append.mp hp with hq | hq
    · right; exact hq
    · left; exact List.mem_singleton.mp hq

theorem dictSet_keys (d : PyDict) (k : PyKey) (v : PyVal) (x : PyKey) :
    x ∈ (dictSet d k v).map Prod.fst ↔ x = k ∨ x ∈ d.map Prod.fst := by
  unfold dictSet
  split
  next hany =>
    rw [List.map_map]
    constructor
    · intro hx
      rcases List.mem_map.mp hx with ⟨q, hq, hfq⟩
      by_cases hqk : (q.1 == k) = true
      · left; rw [← hfq]; simp [beq_iff_eq.mp hqk]
      · right
        rw [← hfq]
        simp only [Function.comp_apply, if_neg hqk]
        exact List.mem_map.mpr ⟨q, hq, rfl⟩
    · intro hx
      rcases hx with rfl | hx
      · rcases List.any_eq_true.mp hany with ⟨q, hq, hqk⟩
        refine List.mem_map.mpr ⟨q, hq, ?_⟩
        simp [beq_iff_eq.mp hqk]
      · rcases List.mem_map.mp hx with ⟨q, hq, hfq⟩
        refine List.mem_map.mpr ⟨q, hq, ?_⟩
        by_cases hqk : (q.1 == k) = true
        · simp only [Function.comp_apply, if_pos hqk]
          rw [← hfq]
          exact (beq_iff_eq.mp hqk).symm
        · simp only [Function.comp_apply, if_neg hqk]
          exact hfq
  next hany =>
    rw [List.map_append]
    simp [or_comm]

theorem foldSet_mem (ps : List (String × String)) :
    ∀ (acc : PyDict) (p : PyKey × PyVal),
      p ∈ ps.foldl (fun d q => dictSet d (PyKey.kstr q.1) (PyVal.vstr q.2)) acc →
      p ∈ acc ∨ ∃ q ∈ ps, p = (PyKey.kstr q.1, PyVal.vstr q.2) := by
  induction ps with
  | nil => intro acc p hp; exact Or.inl hp
  | cons q ps ih =>
      intro acc p hp
      rw [List.foldl_cons] at hp
      rcases ih _ p hp with hacc | ⟨q', hq', rfl⟩
      · rcases dictSet_mem _ _ _ p hacc with rfl | hin
        · exact Or.inr ⟨q, List.mem_cons_self q ps, rfl⟩
        · exact Or.inl hin
      · exact Or.inr ⟨q', List.mem_cons_of_mem q hq', rfl⟩

theorem foldSet_keys (ps : List (String × String)) :
    ∀ (acc : PyDict) (x : PyKey),
      (x ∈ (ps.foldl (fun d q => dictSet d (PyKey.kstr q.1) (PyVal.vstr q.2)) acc).map Prod.fst ↔
        x ∈ acc.map Prod.fst ∨ ∃ q ∈ ps, x = PyKey.kstr q.1) := by
  induction ps with
  | nil => intro acc x; simp
  | cons q ps ih =>
      intro acc x
      rw [List.foldl_cons, ih, dictSet_keys]
      constructor
      · rintro ((rfl | h) | ⟨q', hq', rfl⟩)
        · exact Or.inr ⟨q, List.mem_cons_self q ps, rfl⟩
        · exact Or.inl h
        · exact Or.inr ⟨q', List.mem_cons_of_mem q hq', rfl⟩
      · rintro (h | ⟨q', hq', rfl⟩)
        · exact Or.inl (Or.inr h)
        · rcases List.mem_cons.mp hq' with rfl | hq2
          · exact Or.inl (Or.inl rfl)
          · exact Or.inr ⟨q', hq2, rfl⟩

theorem dict_of_zip_shape (ks vs : List String) :
    ∀ p ∈ dict_of_zip ks vs, (∃ s, p.1 = PyKey.kstr s) ∧ ∃ s, p.2 = PyVal.vstr s := by
  intro p hp
  unfold dict_of_zip at hp
  rcases foldSet_mem _ _ p hp with hacc | ⟨q, _, rfl⟩
  · simp at hacc
  · exact ⟨⟨q.1, rfl⟩, ⟨q.2, rfl⟩⟩

theorem dict_of_zip_keys (ks vs : List String) (x : PyKey) :
    x ∈ (dict_of_zip ks vs).map Prod.fst ↔ ∃ q ∈ ks.zip vs, x = PyKey.kstr q.1 := by
  unfold dict_of_zip
  rw [foldSet_keys]
  simp

theorem removeNone_of_kstr (d : PyDict)
    (h : ∀ p ∈ d, ∃ s, p.1 = PyKey.kstr s) :
    remove_none_key_value_pairs d = d := by
  unfold remove_none_key_value_pairs
  rw [List.filter_eq_self]
  intro p hp
  rcases h p hp with ⟨s, hs⟩
  simp [hs]

theorem add_data_topShape (pt : PyDict) (nodes : List String) (ch : List String)
    (dc : List (Option String)) (t' : PyDict)
    (hns : ∀ n ∈ nodes, ∃ s, n = pyStrip s) (hpt : TopShape pt)
    (h : add_data pt nodes ch dc = Option.some t') : TopShape t' := by
  have hset : ∀ (n : String) (w : PyVal) (hw : ∃ l, w = PyVal.vdict l),
      (∃ s, n = pyStrip s) → TopShape (dictSet pt (PyKey.kstr n) w) := by
    intro n w hw hn p hp
    rcases dictSet_mem _ _ _ p hp with rfl | hin
    · exact ⟨(by rcases hn with ⟨s, rfl⟩; exact ⟨s, rfl⟩), hw⟩
    · exact hpt p hin
  cases nodes with
  | nil => simp [add_data] at h
  | cons n rest =>
      have hn : ∃ s, n = pyStrip s := hns n (List.mem_cons_self n rest)
      cases rest with
      | nil =>
          simp only [add_data, Option.some.injEq] at h
          subst h
          exact hset n _ ⟨_, rfl⟩ hn
      | cons r rest' =>
          simp only [add_data] at h
          cases hget : dictGet pt (PyKey.kstr n) with
          | none =>
              rw [hget] at h
              rcases Option.map_eq_some'.mp h with ⟨sub, _, rfl⟩
              exact hset n _ ⟨_, rfl⟩ hn
          | some w =>
              rw [hget] at h
              cases w with
              | vnone => simp at h
              | vstr s => simp at h
              | vdict sub =>
                  rcases Option.map_eq_some'.mp h with ⟨sub2, _, rfl⟩
                  exact hset n _ ⟨_, rfl⟩ hn

theorem hier_step_inv (ch : List String) (acc : Option (PyDict × List String))
    (row : List (Option String)) (h : HierInv acc) : HierInv (hier_step ch acc row) := by
  cases acc with
  | none => intro pt ns hpn; simp [hier_step] at hpn
  | some st =>
      obtain ⟨pt0, ns0⟩ := st
      obtain ⟨hts, hsl⟩ := h pt0 ns0 rfl
      intro pt ns hpn
      simp only [hier_step, Option.bind_some] at hpn
      have hns' : StrippedList ((ns0.take (row_level (serialize_value (row.headD Option.none))))
          ++ [pyStrip (serialize_value (row.headD Option.none))]) := by
        intro n hn
        rcases List.mem_append.mp hn with hn | hn
        · exact hsl n (List.take_subset _ _ hn)
        · rcases List.mem_singleton.mp hn with rfl
          exact ⟨_, rfl⟩
      split at hpn
      · injection hpn with h2
        injection h2 with hpt hns
        subst hpt
        subst hns
        exact ⟨hts, hns'⟩
      · rcases Option.map_eq_some'.mp hpn with ⟨t', hadd, heq⟩
        injection heq with hpt hns
        subst hpt
        subst hns
        exact ⟨add_data_topShape _ _ _ _ _ hns' hts hadd, hns'⟩

theorem hier_run_inv (rows : List (List (Option String))) : HierInv (hier_run rows) := by
  unfold hier_run
  apply foldl_inv _ HierInv
  · intro acc row _ h
    exact hier_step_inv _ acc row h
  · intro pt ns h
    injection h with h2
    injection h2 with h3 h4
    subst h3
    subst h4
    constructor
    · intro p hp; exact absurd hp (List.not_mem_nil p)
    · intro n hn; exact absurd hn (List.not_mem_nil n)

/-! ## Claims -/

/-- Claim C8: each corner predicate is true exactly when both of its two
border edges have style "medium", and it depends only on the cell's border
edges. -/
theorem c8_border_predicates (c : CellD) :
    (has_upper_left_border c = true ↔
      (c.borderTop = Option.some "medium" ∧ c.borderLeft = Option.some "medium")) ∧
    (has_top_right_border c = true ↔
      (c.borderTop = Option.some "medium" ∧ c.borderRight = Option.some "medium")) ∧
    (has_bottom_right_border c = true ↔
      (c.borderBottom = Option.some "medium" ∧ c.borderRight = Option.some "medium")) := by
  refine ⟨?_, ?_, ?_⟩ <;>
    · simp only [has_upper_left_border, has_top_right_border, has_bottom_right_border,
        Bool.and_eq_true, beq_iff_eq, Option.isSome_iff_exists]
      constructor
      · rintro ⟨⟨_, h1⟩, _, h2⟩
        exact ⟨h1, h2⟩
      · rintro ⟨h1, h2⟩
        exact ⟨⟨⟨_, h1⟩, h1⟩, ⟨_, h2⟩, h2⟩

/-- Claim C9: every region emitted by the detector has its upper-left corner
at a row between 45 and 99 inclusive and at a column strictly below the
grid's last column. -/
theorem c9_corner_bounds (ws : WS) :
    ∀ reg ∈ (get_table_ranges ws).ranges,
      45 ≤ reg.startRow ∧ reg.startRow ≤ 99 ∧ reg.startCol < ws.maxColumn := by
  intro reg hreg
  obtain ⟨h1, h2, _, h4, _, _, _, _⟩ := (get_table_ranges_inv ws).bounds reg hreg
  exact ⟨h1, h2, by omega⟩

/-- Witness for C9 at the concrete sheet `g1`. -/
theorem c9_corner_bounds_witness : 45 ≤ 45 ∧ 45 ≤ 99 ∧ 1 < 3 :=
  c9_corner_bounds g1 ⟨45, 1, 45, 1⟩ (by rw [g1_run]; decide)

/-- Claim C4 fails as stated: on the sheet `g4` one scan emits two regions
that share cells (46,3) and (46,4) — the visited mask does not prevent
regions from overlapping, because the closing-corner scans ignore it. -/
theorem c4_overlap_counterexample :
    (get_table_ranges g4).ranges = [⟨45, 3, 46, 4⟩, ⟨46, 1, 46, 4⟩] ∧
    (46, 3) ∈ rectCells 45 3 46 4 ∧ (46, 3) ∈ rectCells 46 1 46 4 := by
  refine ⟨?_, by decide, by decide⟩
  rw [g4_run]
  rfl

/-- Claim C4 (amended): every emitted region satisfies startRow ≤ endRow and
startCol ≤ endCol, and the visited mask prevents a later region's upper-left
corner from lying inside any earlier region's rectangle; emitted regions can
nevertheless overlap. -/
theorem c4_region_invariants (ws : WS) :
    (∀ reg ∈ (get_table_ranges ws).ranges,
      reg.startRow ≤ reg.endRow ∧ reg.startCol ≤ reg.endCol) ∧
    (get_table_ranges ws).ranges.Pairwise (fun a b =>
      ¬(a.startRow ≤ b.startRow ∧ b.startRow ≤ a.endRow ∧
        a.startCol ≤ b.startCol ∧ b.startCol ≤ a.endCol)) := by
  constructor
  · intro reg hreg
    obtain ⟨_, _, _, _, h5, _, h7, _⟩ := (get_table_ranges_inv ws).bounds reg hreg
    exact ⟨h5, h7⟩
  · exact (get_table_ranges_inv ws).cornersFree

/-- Witness for the amended C4 at the concrete sheet `g4`. -/
theorem c4_region_invariants_witness :
    TableRegion.startRow ⟨45, 3, 46, 4⟩ ≤ TableRegion.endRow ⟨45, 3, 46, 4⟩ ∧
    TableRegion.startCol ⟨45, 3, 46, 4⟩ ≤ TableRegion.endCol ⟨45, 3, 46, 4⟩ :=
  (c4_region_invariants g4).1 ⟨45, 3, 46, 4⟩ (by rw [g4_run]; decide)

/-- Claim C5: the detector's complex output list consists of exactly the
extracted sub-grids of the emitted regions whose upper-left corner cell is
empty, in scan order, and the simple output list of exactly those whose
corner cell is populated — the classification is a pure function of the
corner cell fixed at detection time. -/
theorem c5_classification (ws : WS) :
    (get_table_ranges ws).complex =
      ((get_table_ranges ws).ranges.filter
        (fun reg => is_empty_cell (ws.cell reg.startRow reg.startCol))).map
        (fun reg => extract_subgrid ws reg.startRow reg.startCol reg.endRow reg.endCol) ∧
    (get_table_ranges ws).simple =
      ((get_table_ranges ws).ranges.filter
        (fun reg => !is_empty_cell (ws.cell reg.startRow reg.startCol))).map
        (fun reg => extract_subgrid ws reg.startRow reg.startCol reg.endRow reg.endCol) :=
  ⟨(get_table_ranges_inv ws).complexEq, (get_table_ranges_inv ws).simpleEq⟩

/-- Claim C1 (amended): when a found corner's rightward scan meets no
top-right marker before the column limit, endCol remains the corner's own
column (its initialized value), and when the downward scan meets no
bottom-right marker before the row limit, endRow remains the corner's row;
the collapsed region is still emitted normally and no error path exists. -/
theorem c1_unclosed_region (ws : WS) (st : ScanState) (r c : Nat)
    (hv : st.visited.contains (r, c) = false) (hr : 45 ≤ r)
    (hul : has_upper_left_border (ws.cell r c) = true)
    (hTR : ∀ j ∈ List.range' (c + 1) (ws.maxColumn - c),
      has_top_right_border (ws.cell r (j - 1)) = false)
    (hBR : ∀ i ∈ List.range' (r + 1) (100 - r),
      has_bottom_right_border (ws.cell (i - 1) c) = false) :
    (scanCell ws st r c).ranges = st.ranges ++ [⟨r, c, r, c⟩] := by
  have hec : find_end_col ws r c = c := by
    unfold find_end_col
    have harith : ws.maxColumn + 1 - (c + 1) = ws.maxColumn - c := by omega
    rw [harith, List.find?_eq_none.mpr (fun j hj => by simp [hTR j hj])]
  have her : find_end_row ws r c = r := by
    unfold find_end_row MAX_ROW_IDX
    have harith : 100 + 1 - (r + 1) = 100 - r := by omega
    rw [harith, List.find?_eq_none.mpr (fun i hi => by simp [hBR i hi])]
  have hcond : (st.visited.contains (r, c) || decide (r < 45)) = false := by
    rw [hv, decide_eq_false (Nat.not_lt.mpr hr)]
    rfl
  unfold scanCell
  rw [if_neg (fun h => Bool.false_ne_true (hcond ▸ h)), if_pos hul, emitRegion_ranges, hec, her]

/-- Witness for the amended C1: the corner of `g1` is emitted as the
collapsed single-cell region (45,1)-(45,1). -/
theorem c1_unclosed_region_witness :
    (scanCell g1 initState 45 1).ranges = initState.ranges ++ [⟨45, 1, 45, 1⟩] :=
  c1_unclosed_region g1 initState 45 1 (by decide) (by decide) (by decide)
    (by decide) (by decide)

/-- Claim C1 fails as stated: on `g1` (one corner, no closing markers,
max_column = 3) the emitted region ends at endRow = 45 and endCol = 1 — the
initialized corner coordinates — not at the scanned row limit (99 or 100)
nor at the scanned column limit (2 or 3). -/
theorem c1_unclosed_region_counterexample :
    (get_table_ranges g1).ranges = [⟨45, 1, 45, 1⟩] ∧
    g1.maxColumn = 3 ∧
    TableRegion.endCol ⟨45, 1, 45, 1⟩ = 1 ∧
    TableRegion.endRow ⟨45, 1, 45, 1⟩ = 45 ∧
    (1 : Nat) ≠ 2 ∧ (1 : Nat) ≠ 3 ∧ (45 : Nat) ≠ 99 ∧ (45 : Nat) ≠ 100 := by
  refine ⟨?_, by decide, by decide, by decide, by decide, by decide, by decide, by decide⟩
  rw [g1_run]
  rfl

/-- Claim C2 fails on the code: for labels with leading spaces [0, 3, 3, 6]
the inferred unit is 3, but the per-row level used for path truncation is
the raw leading-space count [0, 3, 3, 6], not [0, 1, 1, 2] — the division by
the unit is commented out in the source and the computed unit is never used.
Consequently, in `exIndent` the rows "   B" and "   C" (equal indentation)
are nested one under the other instead of becoming siblings. -/
theorem c2_raw_levels :
    calculate_num_leading_space_per_level ["A", "   B", "   C", "      D"] = 3 ∧
    ["A", "   B", "   C", "      D"].map row_level = [0, 3, 3, 6] ∧
    ["A", "   B", "   C", "      D"].map row_level ≠ [0, 1, 1, 2] ∧
    process_hierarchical_table exIndent =
      Option.some [(PyKey.kstr "A", PyVal.vdict
        [(PyKey.kstr "H", PyVal.vstr "1"),
         (PyKey.kstr "B", PyVal.vdict
           [(PyKey.kstr "H", PyVal.vstr "2"),
            (PyKey.kstr "C", PyVal.vdict
              [(PyKey.kstr "H", PyVal.vstr "3"),
               (PyKey.kstr "D", PyVal.vdict [(PyKey.kstr "H", PyVal.vstr "4")])])])])] :=
  ⟨by decide, by decide, by decide, rfl⟩

/-- Claim C3: flattening a simple sub-grid yields exactly (row count − 1)
records; each record's key set equals the set of serialized header-row
values, and no retained pair has both key and value None (the pairs removed
by the cleanup are exactly those, and none ever occurs because serialized
keys are strings). -/
theorem c3_simple_roundtrip (hdr : List (Option String))
    (drows : List (List (Option String)))
    (hlen : ∀ row ∈ drows, hdr.length ≤ row.length) :
    (process_simple_table (hdr :: drows)).length = (hdr :: drows).length - 1 ∧
    ∀ record ∈ process_simple_table (hdr :: drows),
      (∀ k, k ∈ record.map Prod.fst ↔
        k ∈ hdr.map (fun cl => PyKey.kstr (serialize_value cl))) ∧
      ∀ p ∈ record, ¬(p.1 = PyKey.knone ∧ p.2 = PyVal.vnone) := by
  constructor
  · simp [process_simple_table]
  · intro record hrec
    simp only [process_simple_table, List.mem_map] at hrec
    obtain ⟨row, hrow, rfl⟩ := hrec
    have hrow' : row ∈ drows := by simpa using hrow
    have hshape := dict_of_zip_shape (hdr.map serialize_value) (row.map serialize_value)
    have hkeys : ∀ p ∈ dict_of_zip (hdr.map serialize_value) (row.map serialize_value),
        ∃ s, p.1 = PyKey.kstr s := fun p hp => (hshape p hp).1
    have hid := removeNone_of_kstr _ hkeys
    have hhd : ((hdr :: drows).headD []) = hdr := rfl
    rw [hhd, hid]
    constructor
    · intro k
      rw [dict_of_zip_keys]
      constructor
      · rintro ⟨q, hq, rfl⟩
        have hq1 : q.1 ∈ hdr.map serialize_value :=
          (List.of_mem_zip (by exact hq)).1
        rcases List.mem_map.mp hq1 with ⟨cl, hcl, hce⟩
        exact List.mem_map.mpr ⟨cl, hcl, by rw [hce]⟩
      · intro hk
        rcases List.mem_map.mp hk with ⟨cl, hcl, rfl⟩
        have hlen' : (hdr.map serialize_value).length ≤ (row.map serialize_value).length := by
          simpa using hlen row hrow'
        have hfst : ((hdr.map serialize_value).zip (row.map serialize_value)).map Prod.fst =
            hdr.map serialize_value := List.map_fst_zip _ _ hlen'
        have hmem : serialize_value cl ∈
            ((hdr.map serialize_value).zip (row.map serialize_value)).map Prod.fst := by
          rw [hfst]
          exact List.mem_map.mpr ⟨cl, hcl, rfl⟩
        rcases List.mem_map.mp hmem with ⟨q, hq, hqe⟩
        exact ⟨q, hq, by rw [hqe]⟩
    · intro p hp
      rcases hkeys p hp with ⟨s, hs⟩
      rintro ⟨h1, _⟩
      rw [hs] at h1
      exact PyKey.noConfusion h1

/-- Witness for C3 at a concrete 2-record simple sub-grid. -/
theorem c3_simple_roundtrip_witness :
    (process_simple_table ([Option.some "Month", Option.some "Savings"] ::
      [[Option.some "January", Option.some "250"],
       [Option.some "February", Option.none]])).length =
    (([Option.some "Month", Option.some "Savings"] : List (Option String)) ::
      [[Option.some "January", Option.some "250"],
       [Option.some "February", Option.none]]).length - 1 :=
  (c3_simple_roundtrip _ _ (by decide)).1

/-- Claim C6: a data row writes a leaf exactly when some data cell (columns
2..) is non-empty: with no populated data cell the tree is unchanged and
only the path is truncated-and-extended with the stripped label; with a
populated cell the row attaches, at exactly the extended path, the leaf
record pairing column header i with serialized data cell i positionally. -/
theorem c6_leaf_rows (ch : List String) (pt : PyDict) (ns : List String)
    (row : List (Option String)) :
    ((∀ cl ∈ row.drop 1, cl = Option.none) →
      hier_step ch (Option.some (pt, ns)) row =
        Option.some (pt, ns.take (row_level (serialize_value (row.headD Option.none))) ++
          [pyStrip (serialize_value (row.headD Option.none))])) ∧
    ((∃ cl ∈ row.drop 1, cl ≠ Option.none) →
      hier_step ch (Option.some (pt, ns)) row =
        (add_data pt (ns.take (row_level (serialize_value (row.headD Option.none))) ++
            [pyStrip (serialize_value (row.headD Option.none))]) ch (row.drop 1)).map
          (fun t => (t, ns.take (row_level (serialize_value (row.headD Option.none))) ++
            [pyStrip (serialize_value (row.headD Option.none))]))) ∧
    (∀ t', add_data pt (ns.take (row_level (serialize_value (row.headD Option.none))) ++
          [pyStrip (serialize_value (row.headD Option.none))]) ch (row.drop 1) =
        Option.some t' →
      lookupPath t' (ns.take (row_level (serialize_value (row.headD Option.none))) ++
          [pyStrip (serialize_value (row.headD Option.none))]) =
        Option.some (PyVal.vdict (dict_of_zip ch ((row.drop 1).map serialize_value)))) := by
  refine ⟨?_, ?_, ?_⟩
  · intro hall
    have hemp : ((row.drop 1).filter (fun cl => cl.isSome)).isEmpty = true := by
      rw [List.isEmpty_iff, List.filter_eq_nil_iff]
      intro cl hcl
      rw [hall cl hcl]
      simp
    simp only [hier_step, Option.bind]
    rw [if_pos hemp]
  · intro hsome
    have hemp : ((row.drop 1).filter (fun cl => cl.isSome)).isEmpty = false := by
      rcases hsome with ⟨cl, hcl, hne⟩
      rcases Option.ne_none_iff_exists'.mp hne with ⟨v, rfl⟩
      have : Option.some v ∈ (row.drop 1).filter (fun cl => cl.isSome) :=
        List.mem_filter.mpr ⟨hcl, rfl⟩
      rcases hfe : ((row.drop 1).filter (fun cl => cl.isSome)).isEmpty with _ | _
      · exact hfe
      · rw [List.isEmpty_iff] at hfe
        rw [hfe] at this
        exact absurd this (List.not_mem_nil _)
    simp only [hier_step, Option.bind]
    rw [if_neg (fun h => Bool.false_ne_true (hemp ▸ h))]
  · intro t' ht'
    exact add_data_lookupPath _ _ _ _ _ ht'

/-- Witness for C6: a category row (no data) only extends the path; a data
row writes the positional leaf. -/
theorem c6_leaf_rows_witness :
    hier_step ["H"] (Option.some ([], ["A"])) [Option.some " X"] =
      Option.some ([], ["A", "X"]) ∧
    hier_step ["H"] (Option.some ([], [])) [Option.some "A", Option.some "1"] =
      Option.some ([(PyKey.kstr "A", PyVal.vdict [(PyKey.kstr "H", PyVal.vstr "1")])], ["A"]) := by
  constructor
  · have h := (c6_leaf_rows ["H"] [] ["A"] [Option.some " X"]).1 (by decide)
    exact h
  · have h := ((c6_leaf_rows ["H"] [] [] [Option.some "A", Option.some "1"]).2).1
      (by exact ⟨Option.some "1", by decide, by decide⟩)
    exact h.trans (by rfl)

/-- Claim C7 fails as stated: on `exLeafCollision` the hierarchy build
raises a Python TypeError (modelled as `Option.none`) because the ancestor
path of row "  B" descends through the string value "v" stored under header
key "H" of an earlier leaf — so the build is not error-free on every input
with a missing ancestor path. -/
theorem c7_missing_ancestor_counterexample :
    process_hierarchical_table exLeafCollision = Option.none := rfl

/-- Claim C7 (amended): whenever every already-present value met along the
ancestor walk is itself a mapping (in particular whenever the ancestors are
simply absent, as for an orphan level-2 row with no level-1 row ever seen),
`add_data` succeeds without error — synthesizing empty branches for the
absent ancestors — and stores the leaf record at exactly the requested
path; only a walk through a leaf's string value errors. -/
theorem c7_missing_ancestor_recovery (pt : PyDict) (nodes ch : List String)
    (dc : List (Option String)) (h : canWalk pt nodes = true) :
    (add_data pt nodes ch dc).bind (fun t => lookupPath t nodes) =
      Option.some (PyVal.vdict (dict_of_zip ch (dc.map serialize_value))) := by
  rcases Option.isSome_iff_exists.mp (add_data_isSome_of_canWalk nodes pt ch dc h) with ⟨t', ht'⟩
  rw [ht']
  exact add_data_lookupPath nodes pt ch dc t' ht'

/-- Witness for the amended C7: an orphan path [A, C] attached to the empty
tree succeeds, synthesizing the missing branch A. -/
theorem c7_missing_ancestor_recovery_witness :
    (add_data [] ["A", "C"] ["H"] [Option.some "v"]).bind
        (fun t => lookupPath t ["A", "C"]) =
      Option.some (PyVal.vdict (dict_of_zip ["H"]
        ([Option.some "v"].map serialize_value))) :=
  c7_missing_ancestor_recovery [] ["A", "C"] ["H"] [Option.some "v"] (by decide)

/-- Claim C10: the final top-level cleanup is the identity on the
reconstructor's output — every top-level key is a stripped string and every
top-level value is a mapping, so no pair has both key and value None and
`remove_none_key_value_pairs` removes nothing. -/
theorem c10_cleanup_identity (rows : List (List (Option String))) :
    process_hierarchical_table rows = (hier_run rows).map (fun st => st.1) ∧
    ∀ pt ns, hier_run rows = Option.some (pt, ns) →
      TopShape pt ∧ remove_none_key_value_pairs pt = pt := by
  have hinv := hier_run_inv rows
  have hident : ∀ pt ns, hier_run rows = Option.some (pt, ns) →
      remove_none_key_value_pairs pt = pt := by
    intro pt ns h
    obtain ⟨hts, _⟩ := hinv pt ns h
    refine removeNone_of_kstr pt (fun p hp => ?_)
    rcases (hts p hp).1 with ⟨s, hs⟩
    exact ⟨pyStrip s, hs⟩
  constructor
  · unfold process_hierarchical_table
    cases hrun : hier_run rows with
    | none => rfl
    | some st =>
        obtain ⟨pt, ns⟩ := st
        show Option.some (remove_none_key_value_pairs pt) = Option.some pt
        rw [hident pt ns hrun]
  · intro pt ns h
    exact ⟨(hinv pt ns h).1, hident pt ns h⟩

/-- Witness for C10 at the concrete sub-grid `exIndent`. -/
theorem c10_cleanup_identity_witness :
    process_hierarchical_table exIndent = (hier_run exIndent).map (fun st => st.1) :=
  (c10_cleanup_identity exIndent).1
